import Mathlib

/-!
Verification of the MarkBridge table-image placement engine
(`src/Resources/Python/docling_convert.py`, `convert_document`, lines 255-314,
and the standalone block scan in `src/Tests/test_table_insert.py`).

Documents are modelled as lists of characters; the engine's three tiers are
translated line by line from the Python source:

* tier 1 ("context-anchor"): for each saved table with a context marker,
  `re.subn(re.escape(marker), img + "\n\n" + marker, content, count=1)`,
  i.e. splice the image text, followed by a blank line, immediately before
  the first literal occurrence of the marker;
* tier 2 ("literal-table-block"): scan `content.split('\n')` for contiguous
  runs of lines whose stripped form starts with a pipe, appending the string
  `"\n![Table N](img)"` when a run ends (including at end of document);
* tier 3 ("fallback-append"): append every still-unplaced table under a
  `## Table Images` trailer, in ascending index order.
-/

/-- ASCII whitespace stripped by Python's `str.strip()` (further Unicode
whitespace code points are immaterial here and omitted). -/
def pySpace (c : Char) : Bool :=
  c = ' ' || c = '\t' || c = '\n' || c = '\r' || c = '\x0b' || c = '\x0c'

/-- Python `line.strip()`. -/
def pyStrip (l : List Char) : List Char :=
  ((l.dropWhile pySpace).reverse.dropWhile pySpace).reverse

/-- Python `line.strip().startswith('|')` (line 284 / test line 47). -/
def isPipeLine (l : List Char) : Bool :=
  match pyStrip l with
  | [] => false
  | c :: _ => c = '|'

/-- Python `content.split('\n')`. -/
def splitNL : List Char → List (List Char)
  | [] => [[]]
  | c :: cs =>
    let r := splitNL cs
    if c = '\n' then [] :: r
    else (c :: r.headD []) :: r.tail

/-- Python `'\n'.join(parts)`. -/
def joinNL : List (List Char) → List Char
  | [] => []
  | [l] => l
  | l :: l₂ :: ls => l ++ '\n' :: joinNL (l₂ :: ls)

/-- Concatenation of the line-splits of every part, used to describe
`splitNL (joinNL parts)` when parts may themselves contain newlines. -/
def splitAll : List (List Char) → List (List Char)
  | [] => []
  | l :: ls => splitNL l ++ splitAll ls

/-- Python f-string `f"![Table {i + 1}]({img_name})"`. -/
def imgText (i : Nat) (img_name : List Char) : List Char :=
  ("![Table ").data ++ (Nat.repr (i + 1)).data ++ ("](").data ++ img_name ++ (")").data

/-- Python `tables_saved[k]` (in the source always accessed in bounds). -/
def pathAt (imgs : List (List Char)) (k : Nat) : List Char :=
  imgs.getD k []

/-- One saved table: its relative image path (`tables_saved[i]`) and the
optional context marker recovered through `table_refs_map`/`table_contexts`. -/
structure SavedTable where
  img_name : List Char
  marker : Option (List Char)

/-- The list `tables_saved` of image path strings. -/
def tablesSaved (ts : List SavedTable) : List (List Char) :=
  ts.map (fun t => t.img_name)

/-- Index of the leftmost occurrence of `m` in `c`: the position at which
`re.subn` with pattern `re.escape(m)` and `count=1` substitutes (an empty
pattern matches at position 0, as in Python). -/
def findSubstr : List Char → List Char → Option Nat
  | [], m => if m.isPrefixOf [] then some 0 else none
  | c :: cs, m =>
    if m.isPrefixOf (c :: cs) then some 0
    else (findSubstr cs m).map (· + 1)

/-- Tier 1 loop (source lines 257-272): for each saved table, in index order,
substitute the first occurrence of its marker (if any) by
`![Table i+1](img)\n\n` followed by the marker itself, recording the index. -/
def strat1go : Nat → List SavedTable → List Char → List Nat → List Char × List Nat
  | _, [], c, ins => (c, ins)
  | i, t :: rest, c, ins =>
    match t.marker with
    | none => strat1go (i + 1) rest c ins
    | some m =>
      match findSubstr c m with
      | none => strat1go (i + 1) rest c ins
      | some p =>
        strat1go (i + 1) rest
          (c.take p ++ imgText i t.img_name ++ '\n' :: '\n' :: c.drop p)
          (ins ++ [i])

/-- Tier 1 entry point. -/
def strat1 (c : List Char) (ts : List SavedTable) : List Char × List Nat :=
  strat1go 0 ts c []

/-- Fuel-indexed body of the skipping loop below. -/
def skipIns (ins : List Nat) : Nat → Nat → Nat
  | 0, k => k
  | fuel + 1, k => if k ∈ ins then skipIns ins fuel (k + 1) else k

/-- Python `while table_index < n and table_index in inserted_indices:
table_index += 1` (source lines 289-290 and 299-300). -/
def skipInserted (ins : List Nat) (n k : Nat) : Nat :=
  skipIns ins (n - k) k

/-- State of the tier 2 scan: the accumulated `new_lines_strategy2`,
`in_table`, `table_index`, and `inserted_indices` (kept as the chronological
list of insertions; Python's set is its underlying collection). -/
structure S2 where
  out : List (List Char)
  in_table : Bool
  table_index : Nat
  inserted : List Nat

/-- Tier 2 main loop (source lines 282-296): append each line; entering a
pipe line sets `in_table`; the first non-pipe line after a pipe run appends
`"\n![Table N](img)"` for the next not-yet-inserted table, after that line. -/
def strat2go (imgs : List (List Char)) : List (List Char) → Bool → Nat → List Nat → S2
  | [], inT, k, ins => ⟨[], inT, k, ins⟩
  | l :: ls, inT, k, ins =>
    if isPipeLine l then
      let r := strat2go imgs ls true k ins
      ⟨l :: r.out, r.in_table, r.table_index, r.inserted⟩
    else if inT then
      let k₂ := skipInserted ins imgs.length k
      if k₂ < imgs.length then
        let r := strat2go imgs ls false (k₂ + 1) (ins ++ [k₂])
        ⟨l :: ('\n' :: imgText k₂ (pathAt imgs k₂)) :: r.out,
          r.in_table, r.table_index, r.inserted⟩
      else
        let r := strat2go imgs ls false k₂ ins
        ⟨l :: r.out, r.in_table, r.table_index, r.inserted⟩
    else
      let r := strat2go imgs ls false k ins
      ⟨l :: r.out, r.in_table, r.table_index, r.inserted⟩

/-- Tier 2 end-of-document handling (source lines 298-304): if the document
ends inside a pipe run, append the next unplaced table's image at the end. -/
def strat2post (imgs : List (List Char)) (r : S2) : S2 :=
  if r.in_table then
    let k₂ := skipInserted r.inserted imgs.length r.table_index
    if k₂ < imgs.length then
      ⟨r.out ++ ['\n' :: imgText k₂ (pathAt imgs k₂)], r.in_table, k₂, r.inserted ++ [k₂]⟩
    else ⟨r.out, r.in_table, k₂, r.inserted⟩
  else r

/-- Tier 2 (source lines 276-306), guarded by
`len(inserted_indices) < len(tables_saved)`; the set cardinality of the
recorded insertions is the length of their deduplication. -/
def strat2 (imgs : List (List Char)) (c : List Char) (ins : List Nat) : List Char × List Nat :=
  if ins.dedup.length < imgs.length then
    let r := strat2post imgs (strat2go imgs (splitNL c) false 0 ins)
    (joinNL r.out, r.inserted)
  else (c, ins)

/-- The image references appended by tier 3, in the given index order. -/
def trailerImgs (imgs : List (List Char)) : List Nat → List Char
  | [] => []
  | i :: rest => ('\n' :: imgText i (pathAt imgs i)) ++ trailerImgs imgs rest

/-- Tier 3 (source lines 308-314): append all remaining tables under a
`## Table Images` trailer. -/
def strat3 (imgs : List (List Char)) (c : List Char) (ins : List Nat) : List Char :=
  let remaining := (List.range imgs.length).filter (fun i => decide (i ∉ ins))
  if remaining = [] then c
  else c ++ ("\n\n## Table Images\n").data ++ trailerImgs imgs remaining

/-- The whole placement engine: tiers 1, 2 and 3 in order
(source lines 255-314). -/
def place (c : List Char) (ts : List SavedTable) : List Char :=
  let r1 := strat1 c ts
  let r2 := strat2 (tablesSaved ts) r1.1 r1.2
  strat3 (tablesSaved ts) r2.1 r2.2

/-- Indices recorded as inserted after tiers 1 and 2. -/
def placeIns2 (c : List Char) (ts : List SavedTable) : List Nat :=
  (strat2 (tablesSaved ts) (strat1 c ts).1 (strat1 c ts).2).2

/-- The `remaining_indices` list handed to tier 3. -/
def placeRemaining (c : List Char) (ts : List SavedTable) : List Nat :=
  (List.range (tablesSaved ts).length).filter (fun i => decide (i ∉ placeIns2 c ts))

/-- The chronological log of all insertion events performed by the engine:
tiers 1-2 in execution order, then tier 3's appends in ascending order.
Each event `i` splices the string `imgText i (pathAt (tablesSaved ts) i)`
into the document. -/
def placeInsLog (c : List Char) (ts : List SavedTable) : List Nat :=
  placeIns2 c ts ++ placeRemaining c ts

/-- `m` occurs in `c` at position `p`. -/
def OccursAt (m c : List Char) (p : Nat) : Prop :=
  (c.drop p).take m.length = m

instance (m c : List Char) (p : Nat) : Decidable (OccursAt m c p) := by
  unfold OccursAt; exact inferInstance

/-- `p` is the first position at which `m` occurs in `c`. -/
def FirstOccAt (m c : List Char) (p : Nat) : Prop :=
  OccursAt m c p ∧ ∀ q, q < p → ¬ OccursAt m c q

instance (m c : List Char) (p : Nat) : Decidable (FirstOccAt m c p) := by
  unfold FirstOccAt; exact inferInstance

/-- `m` occurs somewhere inside `c`. -/
def SubstrOf (m c : List Char) : Prop :=
  ∃ pre suf, c = pre ++ m ++ suf

/-- State of the standalone scan of `src/Tests/test_table_insert.py`. -/
structure TIns where
  out : List (List Char)
  in_table : Bool
  table_index : Nat

/-- Main loop of `test_table_insert.py` (lines 46-60): identical block
detection, but the image line is appended before the exiting line. -/
def testGo (imgs : List (List Char)) : List (List Char) → Bool → Nat → TIns
  | [], inT, k => ⟨[], inT, k⟩
  | l :: ls, inT, k =>
    if isPipeLine l then
      let r := testGo imgs ls true k
      ⟨l :: r.out, r.in_table, r.table_index⟩
    else if inT then
      if k < imgs.length then
        let r := testGo imgs ls false (k + 1)
        ⟨('\n' :: imgText k (pathAt imgs k)) :: l :: r.out, r.in_table, r.table_index⟩
      else
        let r := testGo imgs ls false k
        ⟨l :: r.out, r.in_table, r.table_index⟩
    else
      let r := testGo imgs ls false k
      ⟨l :: r.out, r.in_table, r.table_index⟩

/-- The full line transformation of `test_table_insert.py` (lines 41-65),
including its end-of-document case. -/
def testInsert (ls : List (List Char)) (imgs : List (List Char)) : List (List Char) :=
  let r := testGo imgs ls false 0
  if r.in_table ∧ r.table_index < imgs.length then
    r.out ++ ['\n' :: imgText r.table_index (pathAt imgs r.table_index)]
  else r.out

/-- Strategy 2 of `convert_document` viewed as the same lines-to-lines
transformation (no tables placed beforehand), for comparison with
`testInsert`. -/
def strat2lines (ls : List (List Char)) (imgs : List (List Char)) : List (List Char) :=
  (strat2post imgs (strat2go imgs ls false 0 [])).out

/-! ### Lemmas about line splitting and joining -/

theorem splitNL_ne_nil (c : List Char) : splitNL c ≠ [] := by
  cases c with
  | nil => simp [splitNL]
  | cons x cs =>
    simp only [splitNL]
    split <;> simp

theorem exists_cons_splitNL (c : List Char) : ∃ l ls, splitNL c = l :: ls := by
  cases h : splitNL c with
  | nil => exact absurd h (splitNL_ne_nil c)
  | cons l ls => exact ⟨l, ls, rfl⟩

theorem splitNL_cons_nl (cs : List Char) : splitNL ('\n' :: cs) = [] :: splitNL cs := by
  simp [splitNL]

theorem splitNL_cons_eq {c : Char} (h : ¬ c = '\n') (h₂ : splitNL cs = l :: ls) :
    splitNL (c :: cs) = (c :: l) :: ls := by
  simp [splitNL, h, h₂]

theorem splitNL_append_nl (x y : List Char) :
    splitNL (x ++ '\n' :: y) = splitNL x ++ splitNL y := by
  induction x with
  | nil => simp [splitNL_cons_nl, splitNL]
  | cons c cs ih =>
    by_cases h : c = '\n'
    · subst h
      simp [splitNL_cons_nl, ih]
    · obtain ⟨l, ls, h₂⟩ := exists_cons_splitNL cs
      rw [List.cons_append, splitNL_cons_eq h (by rw [ih, h₂]; rfl), splitNL_cons_eq h h₂]
      rfl

theorem no_nl_of_mem_splitNL : ∀ {c l : List Char}, l ∈ splitNL c → '\n' ∉ l := by
  intro c
  induction c with
  | nil =>
    intro l h
    simp only [splitNL, List.mem_singleton] at h
    subst h; simp
  | cons x cs ih =>
    intro l h
    by_cases hx : x = '\n'
    · subst hx
      rw [splitNL_cons_nl] at h
      rcases List.mem_cons.1 h with h | h
      · subst h; simp
      · exact ih h
    · obtain ⟨a, b, h₂⟩ := exists_cons_splitNL cs
      rw [splitNL_cons_eq hx h₂] at h
      rcases List.mem_cons.1 h with h | h
      · subst h
        intro hmem
        rcases List.mem_cons.1 hmem with h | h
        · exact hx h.symm
        · exact ih (h₂ ▸ List.mem_cons_self a b) h
      · exact ih (h₂ ▸ List.mem_cons_of_mem a h)

theorem splitNL_of_no_nl : ∀ {l : List Char}, '\n' ∉ l → splitNL l = [l] := by
  intro l
  induction l with
  | nil => intro _; rfl
  | cons x xs ih =>
    intro h
    have hx : ¬ x = '\n' := fun hc => h (hc ▸ List.mem_cons_self x xs)
    have hxs : splitNL xs = [xs] := ih (fun hc => h (List.mem_cons_of_mem x hc))
    rw [splitNL_cons_eq hx hxs]

theorem joinNL_cons (x : List Char) {ls : List (List Char)} (h : ls ≠ []) :
    joinNL (x :: ls) = x ++ '\n' :: joinNL ls := by
  cases ls with
  | nil => exact absurd rfl h
  | cons y ys => rfl

theorem joinNL_splitNL (c : List Char) : joinNL (splitNL c) = c := by
  induction c with
  | nil => rfl
  | cons x cs ih =>
    by_cases hx : x = '\n'
    · subst hx
      rw [splitNL_cons_nl, joinNL_cons _ (splitNL_ne_nil cs), ih]
      rfl
    · obtain ⟨l, ls, h₂⟩ := exists_cons_splitNL cs
      rw [splitNL_cons_eq hx h₂]
      rw [h₂] at ih
      cases ls with
      | nil =>
        simp only [joinNL] at ih ⊢
        rw [ih]
      | cons z zs =>
        rw [joinNL_cons _ (by simp)]
        rw [joinNL_cons _ (by simp)] at ih
        rw [List.cons_append, ih]

theorem splitAll_append (xs ys : List (List Char)) :
    splitAll (xs ++ ys) = splitAll xs ++ splitAll ys := by
  induction xs with
  | nil => rfl
  | cons a as ih => simp [splitAll, ih]

theorem splitNL_joinNL : ∀ {ls : List (List Char)}, ls ≠ [] → splitNL (joinNL ls) = splitAll ls := by
  intro ls
  induction ls with
  | nil => intro h; exact absurd rfl h
  | cons x ys ih =>
    intro _
    cases ys with
    | nil => simp [joinNL, splitAll]
    | cons z zs =>
      rw [joinNL_cons x (by simp), splitNL_append_nl, ih (by simp)]
      simp [splitAll]

theorem joinNL_append_single {xs : List (List Char)} (hx : xs ≠ []) (y : List Char) :
    joinNL (xs ++ [y]) = joinNL xs ++ '\n' :: y := by
  induction xs with
  | nil => exact absurd rfl hx
  | cons a as ih =>
    cases as with
    | nil => rfl
    | cons b bs =>
      rw [List.cons_append, joinNL_cons a (by simp), joinNL_cons a (by simp), ih (by simp)]
      simp

theorem sublist_splitAll {ls out : List (List Char)} (h : List.Sublist ls out)
    (hn : ∀ l ∈ ls, '\n' ∉ l) : List.Sublist ls (splitAll out) := by
  induction h with
  | slnil => exact List.nil_sublist _
  | cons a h ih => exact (ih hn).trans (List.sublist_append_right _ _)
  | @cons₂ l₁ l₂ a h ih =>
    rw [splitAll, splitNL_of_no_nl (hn a (List.mem_cons_self a l₁))]
    exact (ih (fun l hl => hn l (List.mem_cons_of_mem a hl))).cons₂ a

/-! ### Lemmas about substring search -/

theorem isPrefixOf_iff_take : ∀ (m c : List Char), m.isPrefixOf c = true ↔ c.take m.length = m
  | [], c => by simp [List.isPrefixOf]
  | a :: as, [] => by simp [List.isPrefixOf]
  | a :: as, b :: bs => by
    show (a == b && as.isPrefixOf bs) = true ↔ _
    rw [Bool.and_eq_true, beq_iff_eq, isPrefixOf_iff_take as bs]
    constructor
    · rintro ⟨rfl, h⟩
      simp [h]
    · intro h
      rw [List.length_cons, List.take_succ_cons] at h
      injection h with h1 h2
      exact ⟨h1.symm, h2⟩

theorem occursAt_zero_iff {m c : List Char} : OccursAt m c 0 ↔ c.take m.length = m := by
  simp [OccursAt]

theorem occursAt_succ_cons {m : List Char} {x : Char} {cs : List Char} {p : Nat} :
    OccursAt m (x :: cs) (p + 1) ↔ OccursAt m cs p := by
  simp [OccursAt]

theorem firstOccAt_iff {m c : List Char} {p : Nat} :
    FirstOccAt m c p ↔ OccursAt m c p ∧ ∀ q, q < p → ¬ OccursAt m c q :=
  Iff.rfl

theorem findSubstr_eq_some_iff (c m : List Char) (p : Nat) :
    findSubstr c m = some p ↔ FirstOccAt m c p := by
  induction c generalizing p with
  | nil =>
    rw [findSubstr]
    by_cases hp : m.isPrefixOf [] = true
    · have h0 : OccursAt m [] 0 := occursAt_zero_iff.2 ((isPrefixOf_iff_take m []).1 hp)
      rw [if_pos hp, firstOccAt_iff]
      constructor
      · rintro h
        injection h with h
        subst h
        exact ⟨h0, fun q hq => absurd hq (Nat.not_lt_zero q)⟩
      · rintro ⟨_, h2⟩
        cases p with
        | zero => rfl
        | succ p => exact absurd h0 (h2 0 (Nat.succ_pos p))
    · have h0 : ∀ q, ¬ OccursAt m [] q := by
        intro q hq
        exact hp ((isPrefixOf_iff_take m []).2 (by simpa [OccursAt] using hq))
      rw [if_neg hp, firstOccAt_iff]
      constructor
      · intro h
        simp at h
      · rintro ⟨h1, _⟩
        exact absurd h1 (h0 p)
  | cons x cs ih =>
    rw [findSubstr]
    by_cases hp : m.isPrefixOf (x :: cs) = true
    · have h0 : OccursAt m (x :: cs) 0 :=
        occursAt_zero_iff.2 ((isPrefixOf_iff_take m (x :: cs)).1 hp)
      rw [if_pos hp, firstOccAt_iff]
      constructor
      · rintro h
        injection h with h
        subst h
        exact ⟨h0, fun q hq => absurd hq (Nat.not_lt_zero q)⟩
      · rintro ⟨_, h2⟩
        cases p with
        | zero => rfl
        | succ p => exact absurd h0 (h2 0 (Nat.succ_pos p))
    · have h0 : ¬ OccursAt m (x :: cs) 0 := fun h =>
        hp ((isPrefixOf_iff_take m (x :: cs)).2 (occursAt_zero_iff.1 h))
      rw [if_neg hp, Option.map_eq_some', firstOccAt_iff]
      constructor
      · rintro ⟨q, hq, rfl⟩
        obtain ⟨h1, h2⟩ := firstOccAt_iff.1 ((ih q).1 hq)
        refine ⟨occursAt_succ_cons.2 h1, ?_⟩
        intro r hr
        cases r with
        | zero => exact h0
        | succ r => exact fun hc => h2 r (Nat.lt_of_succ_lt_succ hr) (occursAt_succ_cons.1 hc)
      · rintro ⟨h1, h2⟩
        cases p with
        | zero => exact absurd h1 h0
        | succ p =>
          refine ⟨p, (ih p).2 (firstOccAt_iff.2 ⟨occursAt_succ_cons.1 h1, ?_⟩), rfl⟩
          intro r hr hc
          exact h2 (r + 1) (Nat.succ_lt_succ hr) (occursAt_succ_cons.2 hc)

theorem findSubstr_eq_none_iff (c m : List Char) :
    findSubstr c m = none ↔ ∀ p, ¬ OccursAt m c p := by
  induction c with
  | nil =>
    rw [findSubstr]
    by_cases hp : m.isPrefixOf [] = true
    · rw [if_pos hp]
      constructor
      · intro h
        simp at h
      · intro h
        exact absurd (occursAt_zero_iff.2 ((isPrefixOf_iff_take m []).1 hp)) (h 0)
    · rw [if_neg hp]
      simp only [true_iff]
      intro p hp2
      refine hp ((isPrefixOf_iff_take m []).2 ?_)
      simpa [OccursAt] using hp2
  | cons x cs ih =>
    rw [findSubstr]
    by_cases hp : m.isPrefixOf (x :: cs) = true
    · rw [if_pos hp]
      constructor
      · intro h
        simp at h
      · intro h
        exact absurd (occursAt_zero_iff.2 ((isPrefixOf_iff_take m (x :: cs)).1 hp)) (h 0)
    · have h0 : ¬ OccursAt m (x :: cs) 0 := fun h =>
        hp ((isPrefixOf_iff_take m (x :: cs)).2 (occursAt_zero_iff.1 h))
      rw [if_neg hp, Option.map_eq_none', ih]
      constructor
      · intro h p
        cases p with
        | zero => exact h0
        | succ p => exact fun hc => h p (occursAt_succ_cons.1 hc)
      · intro h p hc
        exact h (p + 1) (occursAt_succ_cons.2 hc)

theorem occursAt_decomp (pre m suf : List Char) :
    OccursAt m (pre ++ m ++ suf) pre.length := by
  unfold OccursAt
  rw [List.append_assoc, List.drop_left, List.take_left]

theorem substrOf_findSubstr {m c : List Char} (h : SubstrOf m c) :
    ∃ p, findSubstr c m = some p := by
  obtain ⟨pre, suf, rfl⟩ := h
  cases hf : findSubstr (pre ++ m ++ suf) m with
  | some p => exact ⟨p, rfl⟩
  | none => exact absurd (occursAt_decomp pre m suf) ((findSubstr_eq_none_iff _ m).1 hf _)

/-! ### Lemmas about tier 1 -/

theorem strat1go_ins_spec (ts : List SavedTable) :
    ∀ (i : Nat) (c : List Char) (ins : List Nat),
      ∃ L, (strat1go i ts c ins).2 = ins ++ L ∧ L.Nodup ∧
        ∀ x ∈ L, i ≤ x ∧ x < i + ts.length := by
  induction ts with
  | nil =>
    intro i c ins
    exact ⟨[], by simp [strat1go], List.nodup_nil, by simp⟩
  | cons t rest ih =>
    intro i c ins
    cases hm : t.marker with
    | none =>
      obtain ⟨L, h1, h2, h3⟩ := ih (i + 1) c ins
      refine ⟨L, by simp [strat1go, hm, h1], h2, fun x hx => ?_⟩
      have := h3 x hx
      constructor <;> [omega; (simp only [List.length_cons]; omega)]
    | some m =>
      cases hf : findSubstr c m with
      | none =>
        obtain ⟨L, h1, h2, h3⟩ := ih (i + 1) c ins
        refine ⟨L, by simp [strat1go, hm, hf, h1], h2, fun x hx => ?_⟩
        have := h3 x hx
        constructor <;> [omega; (simp only [List.length_cons]; omega)]
      | some p =>
        obtain ⟨L, h1, h2, h3⟩ :=
          ih (i + 1) (c.take p ++ imgText i t.img_name ++ '\n' :: '\n' :: c.drop p) (ins ++ [i])
        refine ⟨i :: L, ?_, ?_, fun x hx => ?_⟩
        · simp only [strat1go, hm, hf]
          rw [h1, List.append_assoc]
          rfl
        · refine List.nodup_cons.2 ⟨fun hc => ?_, h2⟩
          have := (h3 i hc).1
          omega
        · rcases List.mem_cons.1 hx with rfl | hx
          · simp only [List.length_cons]
            omega
          · have := h3 x hx
            constructor <;> [omega; (simp only [List.length_cons]; omega)]

theorem strat1go_content_of_ins_eq (ts : List SavedTable) :
    ∀ (i : Nat) (c : List Char) (ins : List Nat),
      (strat1go i ts c ins).2 = ins → (strat1go i ts c ins).1 = c := by
  induction ts with
  | nil => intro i c ins _; rfl
  | cons t rest ih =>
    intro i c ins h
    cases hm : t.marker with
    | none =>
      simp only [strat1go, hm] at h ⊢
      exact ih (i + 1) c ins h
    | some m =>
      cases hf : findSubstr c m with
      | none =>
        simp only [strat1go, hm, hf] at h ⊢
        exact ih (i + 1) c ins h
      | some p =>
        exfalso
        simp only [strat1go, hm, hf] at h
        obtain ⟨L, h1, _, _⟩ :=
          strat1go_ins_spec rest (i + 1)
            (c.take p ++ imgText i t.img_name ++ '\n' :: '\n' :: c.drop p) (ins ++ [i])
        rw [h1] at h
        have := congrArg List.length h
        simp [List.length_append] at this

theorem strat1go_no_match (ts : List SavedTable) :
    ∀ (i : Nat) (c : List Char) (ins : List Nat),
      (∀ t ∈ ts, ∀ m, t.marker = some m → findSubstr c m = none) →
      strat1go i ts c ins = (c, ins) := by
  induction ts with
  | nil => intro i c ins _; rfl
  | cons t rest ih =>
    intro i c ins h
    cases hm : t.marker with
    | none =>
      simp only [strat1go, hm]
      exact ih (i + 1) c ins (fun u hu => h u (List.mem_cons_of_mem t hu))
    | some m =>
      simp only [strat1go, hm, h t (List.mem_cons_self t rest) m hm]
      exact ih (i + 1) c ins (fun u hu => h u (List.mem_cons_of_mem t hu))

/-! ### Lemmas about the skipping loop -/

theorem skipIns_spec (ins : List Nat) : ∀ (fuel k : Nat),
    skipIns ins fuel k = k + fuel ∨
      (skipIns ins fuel k ∉ ins ∧ k ≤ skipIns ins fuel k ∧ skipIns ins fuel k ≤ k + fuel) := by
  intro fuel
  induction fuel with
  | zero => intro k; left; rfl
  | succ f ih =>
    intro k
    rw [skipIns]
    by_cases hk : k ∈ ins
    · rw [if_pos hk]
      rcases ih (k + 1) with h | ⟨h1, h2, h3⟩
      · left; omega
      · right; exact ⟨h1, by omega, by omega⟩
    · rw [if_neg hk]
      right
      exact ⟨hk, Nat.le_refl k, by omega⟩

theorem skipInserted_ge (ins : List Nat) (n k : Nat) : k ≤ skipInserted ins n k := by
  unfold skipInserted
  rcases skipIns_spec ins (n - k) k with h | ⟨_, h2, _⟩
  · omega
  · exact h2

theorem skipInserted_le (ins : List Nat) {n k : Nat} (h : k ≤ n) : skipInserted ins n k ≤ n := by
  unfold skipInserted
  rcases skipIns_spec ins (n - k) k with h1 | ⟨_, _, h3⟩ <;> omega

theorem skipInserted_not_mem (ins : List Nat) {n k : Nat} (h : k ≤ n)
    (h2 : skipInserted ins n k < n) : skipInserted ins n k ∉ ins := by
  unfold skipInserted at h2 ⊢
  rcases skipIns_spec ins (n - k) k with h1 | ⟨h1, _, _⟩
  · omega
  · exact h1

theorem skipInserted_nil (n k : Nat) : skipInserted [] n k = k := by
  unfold skipInserted
  cases h : n - k with
  | zero => rfl
  | succ f => simp [skipIns]

/-! ### Lemmas about the tier 2 scan -/

theorem strat2go_nil (imgs : List (List Char)) (inT : Bool) (k : Nat) (ins : List Nat) :
    strat2go imgs [] inT k ins = ⟨[], inT, k, ins⟩ := rfl

theorem strat2go_nonpipe (imgs : List (List Char)) :
    ∀ (A : List (List Char)), (∀ l ∈ A, isPipeLine l = false) →
      ∀ (B : List (List Char)) (k : Nat) (ins : List Nat),
        strat2go imgs (A ++ B) false k ins =
          ⟨A ++ (strat2go imgs B false k ins).out,
            (strat2go imgs B false k ins).in_table,
            (strat2go imgs B false k ins).table_index,
            (strat2go imgs B false k ins).inserted⟩ := by
  intro A
  induction A with
  | nil => intro _ B k ins; simp
  | cons l ls ih =>
    intro h B k ins
    have hl : isPipeLine l = false := h l (List.mem_cons_self l ls)
    rw [List.cons_append, strat2go, if_neg (by simp [hl]), if_neg (by simp)]
    rw [ih (fun u hu => h u (List.mem_cons_of_mem l hu)) B k ins]
    rfl

theorem strat2go_pipe (imgs : List (List Char)) :
    ∀ (B : List (List Char)), (∀ l ∈ B, isPipeLine l = true) → B ≠ [] →
      ∀ (inT : Bool) (k : Nat) (ins : List Nat),
        strat2go imgs B inT k ins = ⟨B, true, k, ins⟩ := by
  intro B
  induction B with
  | nil => intro _ h; exact absurd rfl h
  | cons l ls ih =>
    intro h _ inT k ins
    have hl : isPipeLine l = true := h l (List.mem_cons_self l ls)
    rw [strat2go, if_pos hl]
    cases hls : ls with
    | nil => rfl
    | cons y ys =>
      rw [← hls, ih (fun u hu => h u (List.mem_cons_of_mem l hu)) (hls ▸ List.cons_ne_nil y ys)]

theorem strat2go_sublist (imgs : List (List Char)) :
    ∀ (ls : List (List Char)) (inT : Bool) (k : Nat) (ins : List Nat),
      List.Sublist ls (strat2go imgs ls inT k ins).out := by
  intro ls
  induction ls with
  | nil => intro inT k ins; exact List.nil_sublist _
  | cons l ls ih =>
    intro inT k ins
    rw [strat2go]
    by_cases hl : isPipeLine l = true
    · rw [if_pos hl]
      exact (ih true k ins).cons₂ l
    · rw [if_neg hl]
      cases inT with
      | false =>
        rw [if_neg (by simp)]
        exact (ih false k ins).cons₂ l
      | true =>
        rw [if_pos rfl]
        by_cases hk : skipInserted ins imgs.length k < imgs.length
        · rw [if_pos hk]
          exact ((ih false _ _).cons _).cons₂ l
        · rw [if_neg hk]
          exact (ih false _ _).cons₂ l

theorem strat2go_ins_spec (imgs : List (List Char)) :
    ∀ (ls : List (List Char)) (inT : Bool) (k : Nat) (ins : List Nat), k ≤ imgs.length →
      ∃ L, (strat2go imgs ls inT k ins).inserted = ins ++ L ∧ L.Nodup ∧
        (∀ x ∈ L, x < imgs.length ∧ x ∉ ins) ∧
        (strat2go imgs ls inT k ins).table_index ≤ imgs.length := by
  intro ls
  induction ls with
  | nil =>
    intro inT k ins hk
    exact ⟨[], by simp [strat2go_nil], List.nodup_nil, by simp, hk⟩
  | cons l ls ih =>
    intro inT k ins hk
    rw [strat2go]
    by_cases hl : isPipeLine l = true
    · rw [if_pos hl]
      exact ih true k ins hk
    · rw [if_neg hl]
      cases inT with
      | false =>
        rw [if_neg (by simp)]
        exact ih false k ins hk
      | true =>
        rw [if_pos rfl]
        by_cases hlt : skipInserted ins imgs.length k < imgs.length
        · rw [if_pos hlt]
          have hnm : skipInserted ins imgs.length k ∉ ins := skipInserted_not_mem ins hk hlt
          obtain ⟨L, h1, h2, h3, h4⟩ := ih false (skipInserted ins imgs.length k + 1)
            (ins ++ [skipInserted ins imgs.length k]) (by omega)
          refine ⟨skipInserted ins imgs.length k :: L, by simpa using h1, ?_, ?_, h4⟩
          · refine List.nodup_cons.2 ⟨fun hc => ?_, h2⟩
            have := (h3 _ hc).2
            simp at this
          · intro x hx
            rcases List.mem_cons.1 hx with rfl | hx
            · exact ⟨hlt, hnm⟩
            · have := h3 x hx
              refine ⟨this.1, fun hc => this.2 (by simp [hc])⟩
        · rw [if_neg hlt]
          exact ih false (skipInserted ins imgs.length k) ins (skipInserted_le ins hk)

/-! ### Lemmas about the test script scan -/

theorem testGo_nil (imgs : List (List Char)) (inT : Bool) (k : Nat) :
    testGo imgs [] inT k = ⟨[], inT, k⟩ := rfl

theorem testGo_nonpipe (imgs : List (List Char)) :
    ∀ (A : List (List Char)), (∀ l ∈ A, isPipeLine l = false) →
      ∀ (B : List (List Char)) (k : Nat),
        testGo imgs (A ++ B) false k =
          ⟨A ++ (testGo imgs B false k).out,
            (testGo imgs B false k).in_table,
            (testGo imgs B false k).table_index⟩ := by
  intro A
  induction A with
  | nil => intro _ B k; simp
  | cons l ls ih =>
    intro h B k
    have hl : isPipeLine l = false := h l (List.mem_cons_self l ls)
    rw [List.cons_append, testGo, if_neg (by simp [hl]), if_neg (by simp)]
    rw [ih (fun u hu => h u (List.mem_cons_of_mem l hu)) B k]
    rfl

theorem testGo_pipe (imgs : List (List Char)) :
    ∀ (B : List (List Char)), (∀ l ∈ B, isPipeLine l = true) → B ≠ [] →
      ∀ (inT : Bool) (k : Nat), testGo imgs B inT k = ⟨B, true, k⟩ := by
  intro B
  induction B with
  | nil => intro _ h; exact absurd rfl h
  | cons l ls ih =>
    intro h _ inT k
    have hl : isPipeLine l = true := h l (List.mem_cons_self l ls)
    rw [testGo, if_pos hl]
    cases hls : ls with
    | nil => rfl
    | cons y ys =>
      rw [← hls, ih (fun u hu => h u (List.mem_cons_of_mem l hu)) (hls ▸ List.cons_ne_nil y ys)]

/-! ### Composition lemmas for the full engine -/

theorem place_of_all_placed (c : List Char) (ts : List SavedTable)
    (h : (strat1 c ts).2 = List.range ts.length) : place c ts = (strat1 c ts).1 := by
  have hlen : (tablesSaved ts).length = ts.length := List.length_map _ _
  simp only [place]
  rw [strat2, h, List.dedup_eq_self.2 (List.nodup_range ts.length), List.length_range,
    if_neg (by omega)]
  rw [strat3, if_pos]
  rw [List.filter_eq_nil_iff]
  intro a ha
  simp only [decide_eq_true_eq, Decidable.not_not]
  rw [List.mem_range] at ha ⊢
  omega

/-! ### Claim theorems -/

/-- Claim C6: for every document `D`, running the placement engine with an
empty table list returns `D` unchanged: `place(D, []) = D`. Tier 1 iterates
over no tables, tier 2 is skipped by its guard, and tier 3 has an empty
remaining list, so the document is returned as is. -/
theorem C6_place_no_tables_identity (c : List Char) : place c [] = c := rfl

/-- Claim C2, code behavior at the failing input (the claim itself is wrong
about the code): for the document `"| a |\n| b |\ntext"` and one table with
image `t.png` and no marker, the literal-table-block tier emits the image
reference after the first non-table line `"text"` (output lines: block,
`"text"`, blank, image), not on the line immediately following the end of the
block before `"text"` as the claim and `test_table_insert.py` have it. -/
theorem C2_block_insertion_lands_after_following_text_line :
    splitNL (place (("| a |\n| b |\ntext").data) [⟨("t.png").data, none⟩])
      = [("| a |").data, ("| b |").data, ("text").data, [], ("![Table 1](t.png)").data] ∧
    splitNL (place (("| a |\n| b |\ntext").data) [⟨("t.png").data, none⟩])
      ≠ [("| a |").data, ("| b |").data, [], ("![Table 1](t.png)").data, ("text").data] :=
  ⟨by decide, by decide⟩

/-- Claim C10, counterexample: the two implementations of the
literal-table-block tier are not equivalent. On the lines
`["|a", "x"]` with one image `p`, strategy 2 of `convert_document` appends
the image element after the exiting line `"x"`, while the scan of
`test_table_insert.py` inserts it before `"x"`. -/
theorem C10_scans_differ :
    strat2lines [("|a").data, ("x").data] [("p").data]
      ≠ testInsert [("|a").data, ("x").data] [("p").data] := by
  decide

/-- Claim C10, amended: the two scans do agree whenever every line after the
first pipe line is itself a pipe line, i.e. on documents of the form
(non-pipe lines ++ pipe lines); in particular on documents with no pipe
block at all and on documents that end inside their only pipe block. In
general they insert the same images at the same blocks but on opposite
sides of the first non-table line following each block. -/
theorem C10_scans_agree_on_trailing_blocks (A B imgs : List (List Char))
    (hA : ∀ l ∈ A, isPipeLine l = false)
    (hB : ∀ l ∈ B, isPipeLine l = true) :
    strat2lines (A ++ B) imgs = testInsert (A ++ B) imgs := by
  rcases eq_or_ne B [] with rfl | hBne
  · rw [List.append_nil]
    have h1 := strat2go_nonpipe imgs A hA [] 0 []
    rw [List.append_nil, strat2go_nil] at h1
    have h2 := testGo_nonpipe imgs A hA [] 0
    rw [List.append_nil, testGo_nil] at h2
    rw [strat2lines, testInsert, h1, h2]
    simp [strat2post]
  · have h1 := strat2go_nonpipe imgs A hA B 0 []
    rw [strat2go_pipe imgs B hB hBne false 0 []] at h1
    have h2 := testGo_nonpipe imgs A hA B 0
    rw [testGo_pipe imgs B hB hBne false 0] at h2
    rw [strat2lines, testInsert, h1, h2]
    simp only [strat2post, skipInserted_nil]
    by_cases h0 : 0 < imgs.length
    · simp [h0]
    · simp [h0]

/-- Claim C10, witness for the amended theorem at a concrete input: a
non-pipe line followed by a trailing pipe block. -/
theorem C10_scans_agree_witness :
    strat2lines [("x").data, ("|a").data] [("p").data]
      = testInsert [("x").data, ("|a").data] [("p").data] :=
  C10_scans_agree_on_trailing_blocks [("x").data] [("|a").data] [("p").data]
    (by decide) (by decide)

/-- Claim C3, counterexample: two tables whose context markers match the same
substring are both anchored at the same spot by the context-anchor tier. On
the document `"X\nMark here\nY"` with both markers `"Mark"`, the second
table's index 1 is also recorded as placed by tier 1 (the claim asserts it
falls through to tier 2 or 3), and both image references are stacked
immediately before the same occurrence of `"Mark"`. -/
theorem C3_second_marker_also_anchored :
    1 ∈ (strat1 (("X\nMark here\nY").data)
        [⟨("a.png").data, some (("Mark").data)⟩,
          ⟨("b.png").data, some (("Mark").data)⟩]).2 ∧
    place (("X\nMark here\nY").data)
        [⟨("a.png").data, some (("Mark").data)⟩,
          ⟨("b.png").data, some (("Mark").data)⟩]
      = (("X\n![Table 1](a.png)\n\n![Table 2](b.png)\n\nMark here\nY").data) :=
  ⟨by decide, by decide⟩

/-- Claim C3, amended: when two tables carry the same marker and it occurs in
the document, the context-anchor tier anchors both of them: the substitution
for the first table keeps the marker text, `re.subn` restarts its search from
the start of the document, so the second table is also placed by tier 1
instead of falling through, and tiers 2 and 3 perform no insertion at all. -/
theorem C3_same_marker_both_placed_by_tier1 (c m p₀ p₁ : List Char)
    (h : SubstrOf m c) :
    (strat1 c [⟨p₀, some m⟩, ⟨p₁, some m⟩]).2 = [0, 1] ∧
    place c [⟨p₀, some m⟩, ⟨p₁, some m⟩] = (strat1 c [⟨p₀, some m⟩, ⟨p₁, some m⟩]).1 := by
  obtain ⟨q, hf⟩ := substrOf_findSubstr h
  have hocc : OccursAt m c q := (firstOccAt_iff.1 ((findSubstr_eq_some_iff c m q).1 hf)).1
  have hdec : c.drop q = m ++ (c.drop q).drop m.length := by
    conv_lhs => rw [← List.take_append_drop m.length (c.drop q)]
    rw [hocc]
  have hsub : SubstrOf m (c.take q ++ imgText 0 p₀ ++ '\n' :: '\n' :: c.drop q) := by
    refine ⟨c.take q ++ imgText 0 p₀ ++ ['\n', '\n'], (c.drop q).drop m.length, ?_⟩
    rw [hdec]
    simp
  obtain ⟨q₂, hf₂⟩ := substrOf_findSubstr hsub
  have hf₂a : findSubstr (c.take q ++ (imgText 0 p₀ ++ '\n' :: '\n' :: c.drop q)) m
      = some q₂ := by
    rw [← List.append_assoc]
    exact hf₂
  have h1 : (strat1 c [⟨p₀, some m⟩, ⟨p₁, some m⟩]).2 = [0, 1] := by
    simp [strat1, strat1go, hf, hf₂a]
  refine ⟨h1, place_of_all_placed c _ ?_⟩
  rw [h1]
  rfl

/-- Claim C3, witness for the amended theorem: the marker `"Mark"` occurs in
`"see Mark here"`, and with two tables both carrying it, tier 1 places both. -/
theorem C3_same_marker_witness :
    SubstrOf (("Mark").data) (("see Mark here").data) ∧
    (strat1 (("see Mark here").data)
        [⟨("a.png").data, some (("Mark").data)⟩,
          ⟨("b.png").data, some (("Mark").data)⟩]).2 = [0, 1] ∧
    place (("see Mark here").data)
        [⟨("a.png").data, some (("Mark").data)⟩,
          ⟨("b.png").data, some (("Mark").data)⟩]
      = (strat1 (("see Mark here").data)
          [⟨("a.png").data, some (("Mark").data)⟩,
            ⟨("b.png").data, some (("Mark").data)⟩]).1 :=
  have h : SubstrOf (("Mark").data) (("see Mark here").data) :=
    ⟨("see ").data, (" here").data, by decide⟩
  ⟨h, C3_same_marker_both_placed_by_tier1 _ _ _ _ h⟩

/-- Claim C4, counterexample: when the marker occurs in the middle of a line,
the context-anchor tier does not insert the image reference before the line
containing the occurrence; it splits the line at the occurrence. For the
one-line document `"abc Quarterly Report"` and marker `"Quarterly Report"`,
the output is `"abc ![Table 1](q.png)\n\nQuarterly Report"`, not the
claim's `"![Table 1](q.png)\n\nabc Quarterly Report"`. -/
theorem C4_midline_marker_splits_line :
    place (("abc Quarterly Report").data)
        [⟨("q.png").data, some (("Quarterly Report").data)⟩]
      = (("abc ![Table 1](q.png)\n\nQuarterly Report").data) ∧
    place (("abc Quarterly Report").data)
        [⟨("q.png").data, some (("Quarterly Report").data)⟩]
      ≠ (("![Table 1](q.png)\n\nabc Quarterly Report").data) :=
  ⟨by decide, by decide⟩

/-- Claim C4, amended: the context-anchor tier matches the first occurrence of
the marker only, exactly and case-sensitively, and inserts the image
reference immediately before that occurrence itself, separated by a blank
line (splitting the containing line when the occurrence is mid-line; when
the marker starts a line this places the image directly before that line). -/
theorem C4_anchor_before_first_occurrence (c m path : List Char) (p : Nat)
    (h : FirstOccAt m c p) :
    place c [⟨path, some m⟩] = c.take p ++ imgText 0 path ++ '\n' :: '\n' :: c.drop p := by
  have hf : findSubstr c m = some p := (findSubstr_eq_some_iff c m p).2 h
  have h1 : strat1 c [⟨path, some m⟩]
      = (c.take p ++ imgText 0 path ++ '\n' :: '\n' :: c.drop p, [0]) := by
    simp [strat1, strat1go, hf]
  rw [place_of_all_placed c _ (by rw [h1]; rfl), h1]

/-- Claim C4, witness for the amended theorem: the document
`"Intro\nQuarterly Report\nEnd"` contains `"Quarterly Report"` exactly once,
at the start of its second line (first occurrence at index 6), and the image
reference lands directly before that line, separated by a blank line. -/
theorem C4_anchor_witness :
    FirstOccAt (("Quarterly Report").data) (("Intro\nQuarterly Report\nEnd").data) 6 ∧
    place (("Intro\nQuarterly Report\nEnd").data)
        [⟨("q.png").data, some (("Quarterly Report").data)⟩]
      = (("Intro\n![Table 1](q.png)\n\nQuarterly Report\nEnd").data) :=
  ⟨by decide,
    (C4_anchor_before_first_occurrence _ _ _ 6 (by decide)).trans (by decide)⟩

theorem splitNL_strat3_sublist (imgs : List (List Char)) (c : List Char) (ins : List Nat) :
    List.Sublist (splitNL c) (splitNL (strat3 imgs c ins)) := by
  simp only [strat3]
  by_cases hrem : ((List.range imgs.length).filter (fun i => decide (i ∉ ins))) = []
  · rw [if_pos hrem]
  · rw [if_neg hrem]
    have hhd : ("\n\n## Table Images\n").data ++
          trailerImgs imgs ((List.range imgs.length).filter (fun i => decide (i ∉ ins)))
        = '\n' :: (("\n## Table Images\n").data ++
          trailerImgs imgs ((List.range imgs.length).filter (fun i => decide (i ∉ ins)))) := rfl
    rw [List.append_assoc, hhd, splitNL_append_nl]
    exact List.sublist_append_left _ _

theorem splitNL_strat2_sublist (imgs : List (List Char)) (c : List Char) (ins : List Nat) :
    List.Sublist (splitNL c) (splitNL (strat2 imgs c ins).1) := by
  rw [strat2]
  by_cases hg : ins.dedup.length < imgs.length
  · rw [if_pos hg]
    have h1 := strat2go_sublist imgs (splitNL c) false 0 ins
    have hsub : List.Sublist (splitNL c)
        (strat2post imgs (strat2go imgs (splitNL c) false 0 ins)).out := by
      rw [strat2post]
      by_cases hin : (strat2go imgs (splitNL c) false 0 ins).in_table = true
      · rw [if_pos hin]
        by_cases hk : skipInserted (strat2go imgs (splitNL c) false 0 ins).inserted
            imgs.length (strat2go imgs (splitNL c) false 0 ins).table_index < imgs.length
        · rw [if_pos hk]
          exact h1.trans (List.sublist_append_left _ _)
        · rw [if_neg hk]
          exact h1
      · rw [if_neg hin]
        exact h1
    have hne : (strat2post imgs (strat2go imgs (splitNL c) false 0 ins)).out ≠ [] := by
      intro hnil
      have hlen := hsub.length_le
      rw [hnil, List.length_nil, Nat.le_zero] at hlen
      exact splitNL_ne_nil c (List.length_eq_zero.1 hlen)
    show List.Sublist (splitNL c)
      (splitNL (joinNL (strat2post imgs (strat2go imgs (splitNL c) false 0 ins)).out))
    rw [splitNL_joinNL hne]
    exact sublist_splitAll hsub (fun l hl => no_nl_of_mem_splitNL hl)
  · rw [if_neg hg]

/-- Claim C5, counterexample: not every original document line survives
unchanged. A mid-line context-marker match makes tier 1 split the line: for
the one-line document `"foo BAR baz"` and marker `"BAR"`, no output line
equals the original line, so the original lines are not a sublist of the
output lines. -/
theorem C5_midline_anchor_breaks_line :
    ¬ List.Sublist (splitNL (("foo BAR baz").data))
        (splitNL (place (("foo BAR baz").data)
          [⟨("p.png").data, some (("BAR").data)⟩])) := by
  intro hs
  have hm := hs.subset (by decide : ("foo BAR baz").data ∈ splitNL (("foo BAR baz").data))
  exact absurd hm (by decide)

/-- Claim C5, amended: whenever the context-anchor tier performs no insertion
(no table has a matching marker), every original document line appears in
the output unchanged and in its original relative order: tiers 2 and 3 only
add lines. In general, a tier 1 insertion at a mid-line occurrence splits
the containing line (see the counterexample), although the character
content of the document is still preserved around the splice. -/
theorem C5_order_preserved_when_tier1_idle (c : List Char) (ts : List SavedTable)
    (h : (strat1 c ts).2 = []) :
    List.Sublist (splitNL c) (splitNL (place c ts)) := by
  have hc : (strat1 c ts).1 = c := strat1go_content_of_ins_eq ts 0 c [] h
  simp only [place]
  rw [hc, h]
  exact (splitNL_strat2_sublist _ c _).trans (splitNL_strat3_sublist _ _ _)

/-- Claim C5, witness for the amended theorem: a document with a pipe block
and a following line, and two markerless tables (one placed by tier 2, one
by tier 3); all original lines survive in order. -/
theorem C5_order_preserved_witness :
    (strat1 (("| x |\ny").data) [⟨("a.png").data, none⟩, ⟨("b.png").data, none⟩]).2 = [] ∧
    List.Sublist (splitNL (("| x |\ny").data))
      (splitNL (place (("| x |\ny").data)
        [⟨("a.png").data, none⟩, ⟨("b.png").data, none⟩])) :=
  ⟨by decide, C5_order_preserved_when_tier1_idle _ _ (by decide)⟩

/-- Claim C7: for a document with no pipe-table line and tables none of whose
markers occur in the document, every table's image reference is appended at
the end under the `## Table Images` trailer, in ascending index order
(`trailerImgs` over `List.range ts.length` lists indices 0,1,... in order). -/
theorem C7_exhaustive_fallback (c : List Char) (ts : List SavedTable)
    (hts : ts ≠ [])
    (hp : ∀ l ∈ splitNL c, isPipeLine l = false)
    (hm : ∀ t ∈ ts, ∀ m, t.marker = some m → findSubstr c m = none) :
    place c ts = c ++ ("\n\n## Table Images\n").data ++
      trailerImgs (tablesSaved ts) (List.range ts.length) := by
  have hlen : (tablesSaved ts).length = ts.length := List.length_map _ _
  have hn : 0 < ts.length := List.length_pos.2 hts
  have h1 : strat1 c ts = (c, []) := strat1go_no_match ts 0 c [] hm
  simp only [place, h1]
  rw [strat2, if_pos (by simpa [hlen] using hn)]
  have h2 : strat2go (tablesSaved ts) (splitNL c) false 0 [] = ⟨splitNL c, false, 0, []⟩ := by
    have h := strat2go_nonpipe (tablesSaved ts) (splitNL c) hp [] 0 []
    rw [List.append_nil, strat2go_nil] at h
    simpa using h
  rw [h2]
  have h3 : strat2post (tablesSaved ts) ⟨splitNL c, false, 0, []⟩
      = ⟨splitNL c, false, 0, []⟩ := by
    rw [strat2post, if_neg (by simp)]
  rw [h3]
  have h4 : (List.range (tablesSaved ts).length).filter
      (fun i => decide (i ∉ ([] : List Nat))) = List.range ts.length := by
    rw [hlen]
    refine List.filter_eq_self.2 ?_
    intro a _
    simp
  simp only [strat3, joinNL_splitNL, h4]
  rw [if_neg (by rw [List.range_eq_nil]; omega)]

/-- Claim C7, witness: a plain-text document, one table with a non-matching
marker and one with no marker; both image references are appended under the
trailer in ascending index order. -/
theorem C7_exhaustive_fallback_witness :
    place (("plain text").data)
        [⟨("a.png").data, some (("zzz").data)⟩, ⟨("b.png").data, none⟩]
      = (("plain text\n\n## Table Images\n\n![Table 1](a.png)\n![Table 2](b.png)").data) :=
  (C7_exhaustive_fallback (("plain text").data)
      [⟨("a.png").data, some (("zzz").data)⟩, ⟨("b.png").data, none⟩]
      (List.cons_ne_nil _ _) (by decide)
      (by
        intro t ht m hm
        rcases List.mem_cons.1 ht with rfl | ht
        · simp only at hm
          injection hm with hm
          subst hm
          decide
        · rcases List.mem_cons.1 ht with rfl | ht
          · simp at hm
          · cases ht)).trans (by decide)

/-- For a document made of non-pipe lines followed by a trailing pipe block
and one markerless table, the whole engine inserts the image at the end of
the document after a blank line (a special case tying the end-of-document
behavior of tier 2 to `place`). -/
theorem place_single_trailing_block (c : List Char) (t : SavedTable)
    (A B : List (List Char))
    (hmk : t.marker = none)
    (hsp : splitNL c = A ++ B)
    (hA : ∀ l ∈ A, isPipeLine l = false)
    (hB : ∀ l ∈ B, isPipeLine l = true)
    (hBne : B ≠ []) :
    place c [t] = c ++ '\n' :: '\n' :: imgText 0 t.img_name := by
  have h1 : strat1 c [t] = (c, []) := by
    refine strat1go_no_match [t] 0 c [] ?_
    intro u hu m hm
    rcases List.mem_singleton.1 hu with rfl
    rw [hmk] at hm
    cases hm
  simp only [place, h1]
  rw [strat2, if_pos (by simp [tablesSaved])]
  have h2 : strat2go (tablesSaved [t]) (splitNL c) false 0 [] = ⟨A ++ B, true, 0, []⟩ := by
    rw [hsp, strat2go_nonpipe _ A hA B 0 [], strat2go_pipe _ B hB hBne false 0 []]
  rw [h2]
  have h3 : strat2post (tablesSaved [t]) ⟨A ++ B, true, 0, []⟩
      = ⟨(A ++ B) ++ ['\n' :: imgText 0 t.img_name], true, 0, [0]⟩ := by
    simp [strat2post, skipInserted_nil, pathAt, tablesSaved]
  rw [h3]
  have hABne : A ++ B ≠ [] := by
    rw [← hsp]
    exact splitNL_ne_nil c
  have h4 : (List.range (tablesSaved [t]).length).filter
      (fun i => decide (i ∉ ([0] : List Nat))) = [] := by
    rw [show (tablesSaved [t]).length = 1 from rfl]
    decide
  simp only [strat3, h4, joinNL_append_single hABne]
  rw [if_pos trivial, ← hsp, joinNL_splitNL]

theorem strat2go_in_table_of_last_pipe (imgs : List (List Char)) :
    ∀ (A : List (List Char)) (llast : List Char), isPipeLine llast = true →
      ∀ (inT : Bool) (k : Nat) (ins : List Nat),
        (strat2go imgs (A ++ [llast]) inT k ins).in_table = true := by
  intro A
  induction A with
  | nil =>
    intro llast h inT k ins
    rw [List.nil_append, strat2go, if_pos h]
    rfl
  | cons l A ih =>
    intro llast h inT k ins
    rw [List.cons_append, strat2go]
    by_cases hl : isPipeLine l = true
    · rw [if_pos hl]
      exact ih llast h true k ins
    · rw [if_neg hl]
      cases inT with
      | false =>
        rw [if_neg (by simp)]
        exact ih llast h false k ins
      | true =>
        rw [if_pos rfl]
        by_cases hk : skipInserted ins imgs.length k < imgs.length
        · rw [if_pos hk]
          exact ih llast h false _ _
        · rw [if_neg hk]
          exact ih llast h false _ _

theorem strat2go_out_ne_nil (imgs : List (List Char)) (ls : List (List Char))
    (inT : Bool) (k : Nat) (ins : List Nat) (h : ls ≠ []) :
    (strat2go imgs ls inT k ins).out ≠ [] := by
  intro hnil
  have hlen := (strat2go_sublist imgs ls inT k ins).length_le
  rw [hnil, List.length_nil, Nat.le_zero] at hlen
  exact h (List.length_eq_zero.1 hlen)

/-- Claim C8: if the document seen by the literal-table-block tier ends while
still inside a pipe-table block (its last line is a pipe line) and a next
unplaced table exists, end-of-document is treated as the block's end: the
tier's output is the scanned document followed by a blank line and the image
line of the next unplaced table (the skip of already-inserted indices from
the current table index), and nothing after it. -/
theorem C8_end_of_document_closes_block (imgs : List (List Char)) (c1 : List Char)
    (ins1 : List Nat) (A : List (List Char)) (llast : List Char)
    (hguard : ins1.dedup.length < imgs.length)
    (hsp : splitNL c1 = A ++ [llast])
    (hlast : isPipeLine llast = true)
    (hk : skipInserted (strat2go imgs (splitNL c1) false 0 ins1).inserted imgs.length
        (strat2go imgs (splitNL c1) false 0 ins1).table_index < imgs.length) :
    (strat2 imgs c1 ins1).1 =
      joinNL (strat2go imgs (splitNL c1) false 0 ins1).out ++
        '\n' :: '\n' :: imgText
          (skipInserted (strat2go imgs (splitNL c1) false 0 ins1).inserted imgs.length
            (strat2go imgs (splitNL c1) false 0 ins1).table_index)
          (pathAt imgs
            (skipInserted (strat2go imgs (splitNL c1) false 0 ins1).inserted imgs.length
              (strat2go imgs (splitNL c1) false 0 ins1).table_index)) := by
  have hint : (strat2go imgs (splitNL c1) false 0 ins1).in_table = true := by
    rw [hsp]
    exact strat2go_in_table_of_last_pipe imgs A llast hlast false 0 ins1
  have hone : (strat2go imgs (splitNL c1) false 0 ins1).out ≠ [] :=
    strat2go_out_ne_nil imgs _ false 0 ins1 (splitNL_ne_nil c1)
  rw [strat2, if_pos hguard]
  show (joinNL (strat2post imgs (strat2go imgs (splitNL c1) false 0 ins1)).out, _).1 = _
  rw [strat2post, if_pos hint, if_pos hk]
  show joinNL ((strat2go imgs (splitNL c1) false 0 ins1).out ++ _) = _
  rw [joinNL_append_single hone]

/-- Claim C8, witness: the document `"Head\n| a |\n| b |"` ends inside a
two-line pipe block; with one image and nothing placed before, the tier 2
output is the document, a blank line, and the image line at the very end. -/
theorem C8_end_of_document_witness :
    (strat2 [("t.png").data] (("Head\n| a |\n| b |").data) []).1
      = (("Head\n| a |\n| b |\n\n![Table 1](t.png)").data) :=
  (C8_end_of_document_closes_block [("t.png").data] (("Head\n| a |\n| b |").data) []
      [("Head").data, ("| a |").data] (("| b |").data)
      (by decide) (by decide) (by decide) (by decide)).trans (by decide)

theorem trailerImgs_append (imgs : List (List Char)) (xs ys : List Nat) :
    trailerImgs imgs (xs ++ ys) = trailerImgs imgs xs ++ trailerImgs imgs ys := by
  induction xs with
  | nil => rfl
  | cons a as ih => simp [trailerImgs, ih]

theorem placeIns2_spec (c : List Char) (ts : List SavedTable) :
    (placeIns2 c ts).Nodup ∧ ∀ x ∈ placeIns2 c ts, x < ts.length := by
  have hlen : (tablesSaved ts).length = ts.length := List.length_map _ _
  obtain ⟨L, h1, h2, h3⟩ := strat1go_ins_spec ts 0 c []
  rw [List.nil_append] at h1
  have hins1 : (strat1 c ts).2 = L := h1
  have hL : ∀ x ∈ L, x < ts.length := by
    intro x hx
    have := (h3 x hx).2
    omega
  rw [placeIns2, strat2]
  by_cases hg : (strat1 c ts).2.dedup.length < (tablesSaved ts).length
  · rw [if_pos hg]
    obtain ⟨L₂, g1, g2, g3, g4⟩ := strat2go_ins_spec (tablesSaved ts)
      (splitNL (strat1 c ts).1) false 0 (strat1 c ts).2 (Nat.zero_le _)
    set r := strat2go (tablesSaved ts) (splitNL (strat1 c ts).1) false 0 (strat1 c ts).2
      with hr
    have hbase : (r.inserted).Nodup ∧ ∀ x ∈ r.inserted, x < ts.length := by
      rw [g1, hins1]
      constructor
      · refine List.Nodup.append h2 g2 ?_
        intro a ha hf
        exact (g3 a hf).2 (hins1 ▸ ha)
      · intro x hx
        rcases List.mem_append.1 hx with hx | hx
        · exact hL x hx
        · have := (g3 x hx).1
          omega
    show ((strat2post (tablesSaved ts) r).inserted).Nodup ∧
      ∀ x ∈ (strat2post (tablesSaved ts) r).inserted, x < ts.length
    rw [strat2post]
    by_cases hin : r.in_table = true
    · rw [if_pos hin]
      by_cases hk : skipInserted r.inserted (tablesSaved ts).length r.table_index
          < (tablesSaved ts).length
      · rw [if_pos hk]
        have hnm : skipInserted r.inserted (tablesSaved ts).length r.table_index ∉ r.inserted :=
          skipInserted_not_mem r.inserted g4 hk
        constructor
        · refine List.Nodup.append hbase.1 (List.nodup_singleton _) ?_
          intro a ha hf
          rw [List.mem_singleton] at hf
          subst hf
          exact hnm ha
        · intro x hx
          rcases List.mem_append.1 hx with hx | hx
          · exact hbase.2 x hx
          · rw [List.mem_singleton] at hx
            subst hx
            omega
      · rw [if_neg hk]
        exact hbase
    · rw [if_neg hin]
      exact hbase
  · rw [if_neg hg]
    rw [hins1]
    exact ⟨h2, hL⟩

/-- Claim C1: every table is inserted exactly once across the three tiers,
none is dropped and none is inserted twice. The chronological log of the
engine's insertion events (tier 1 and tier 2 insertions in execution order,
then tier 3's trailer appends) is a permutation of the table indices
`0, ..., n-1`; the event for index `i` splices exactly the string
`imgText i (pathAt (tablesSaved ts) i)` referencing table `i`'s path. -/
theorem C1_one_insertion_event_per_table (c : List Char) (ts : List SavedTable) :
    List.Perm (placeInsLog c ts) (List.range ts.length) := by
  obtain ⟨hnd, hbd⟩ := placeIns2_spec c ts
  rw [placeInsLog, placeRemaining,
    show (tablesSaved ts).length = ts.length from List.length_map _ _]
  refine (List.perm_ext_iff_of_nodup ?_ (List.nodup_range _)).2 ?_
  · refine List.Nodup.append hnd (List.Nodup.filter _ (List.nodup_range _)) ?_
    intro a ha hf
    rw [List.mem_filter] at hf
    have hfa := hf.2
    simp only [decide_eq_true_eq] at hfa
    exact hfa ha
  · intro a
    simp only [List.mem_append, List.mem_filter, List.mem_range, decide_eq_true_eq]
    constructor
    · rintro (h | ⟨h, _⟩)
      · exact hbd a h
      · exact h
    · intro h
      by_cases hm : a ∈ placeIns2 c ts
      · exact Or.inl hm
      · exact Or.inr ⟨h, hm⟩

/-- Claim C9: the engine is total (it is a Lean function) and an unplaceable
table always degrades to the tier 3 append: any table index not recorded as
inserted by tiers 1-2 has its image reference spliced into the output by
the trailer, so the output document contains it as a substring. -/
theorem C9_unplaced_table_always_appended (c : List Char) (ts : List SavedTable) (i : Nat)
    (h1 : i < ts.length) (h2 : i ∉ placeIns2 c ts) :
    SubstrOf (imgText i (pathAt (tablesSaved ts) i)) (place c ts) := by
  have hlen : (tablesSaved ts).length = ts.length := List.length_map _ _
  have hmem : i ∈ placeRemaining c ts := by
    rw [placeRemaining, List.mem_filter, List.mem_range]
    exact ⟨by omega, by simpa using h2⟩
  obtain ⟨s, t2, hst⟩ := List.append_of_mem hmem
  have hplace : place c ts = strat3 (tablesSaved ts)
      (strat2 (tablesSaved ts) (strat1 c ts).1 (strat1 c ts).2).1 (placeIns2 c ts) := rfl
  rw [hplace, strat3]
  rw [show (List.range (tablesSaved ts).length).filter
      (fun j => decide (j ∉ placeIns2 c ts)) = placeRemaining c ts from rfl]
  rw [if_neg (by rw [hst]; simp), hst, trailerImgs_append]
  refine ⟨(strat2 (tablesSaved ts) (strat1 c ts).1 (strat1 c ts).2).1
      ++ ("\n\n## Table Images\n").data ++ trailerImgs (tablesSaved ts) s ++ ['\n'],
    trailerImgs (tablesSaved ts) t2, ?_⟩
  simp [trailerImgs, List.append_assoc]

/-- Claim C9, witness: for a plain document and one markerless table, index 0
is unplaced after tiers 1-2 and its image reference occurs in the output. -/
theorem C9_unplaced_table_witness :
    0 < ([⟨("a.png").data, none⟩] : List SavedTable).length ∧
    0 ∉ placeIns2 (("doc").data) [⟨("a.png").data, none⟩] ∧
    SubstrOf (imgText 0 (pathAt (tablesSaved [⟨("a.png").data, none⟩]) 0))
      (place (("doc").data) [⟨("a.png").data, none⟩]) :=
  ⟨by decide, by decide,
    C9_unplaced_table_always_appended (("doc").data) [⟨("a.png").data, none⟩] 0
      (by decide) (by decide)⟩

